import Mathlib

/-!
Verification of the easy-cluster pipeline against its specification.

The development shallowly embeds the two Rust source files:
* `src/main.rs` — hash oracle (`mix`), cluster sampler (the scan loop in
  `main`), Prim-style tree builder, and the topology classifier;
* `minecraft-schematics/src/lib.rs` — region encoder (`Region::to_tag`)
  and schematic serialization (`Schematic::to_tag`).

Machine integers are modelled as `Nat`/`Int` with explicit `% 2 ^ 64`
wrap-around where the Rust code performs wrapping `u64` arithmetic.
All definitions are executable.
-/

/-! ## Hash oracle (`mix`, `main.rs` lines 14–19) -/

/-- `mix`: wrapping multiply by the fixed odd constant, then two
shift-xor avalanche folds, exactly as in `main.rs`. -/
def mix (val : ℕ) : ℕ :=
  let h0 := (val * 0x9E3779B97F4A7C15) % 2 ^ 64
  let h1 := h0 ^^^ (h0 >>> 32)
  h1 ^^^ (h1 >>> 16)

/-- Two's-complement value of a signed integer viewed as `u64`
(`as u64` sign extension in Rust). -/
def toU64 (i : ℤ) : ℕ := (i % (2 : ℤ) ^ 64).toNat

/-- `((z as u64) << 32) | ((((x) as u64) << 32) >> 32)` from
`main.rs` line 75: z in the high 32 bits, low 32 bits of x below. -/
def packLong (x z : ℤ) : ℕ :=
  ((toU64 z * 2 ^ 32) % 2 ^ 64) ||| (((toU64 x * 2 ^ 32) % 2 ^ 64) / 2 ^ 32)

/-- Wrapping `u64` subtraction. -/
def sub64 (a b : ℕ) : ℕ := (a + (2 ^ 64 - b % 2 ^ 64)) % 2 ^ 64

/-! ## Chunks and the cluster sampler (`main.rs` lines 25–88) -/

/-- `Chunk` from `main.rs`: a grid coordinate plus its derived hash. -/
structure Chunk where
  x : ℤ
  z : ℤ
  hash : ℕ
deriving DecidableEq, Repr, Inhabited

/-- The coordinate of a chunk. -/
def chunkCoords (c : Chunk) : ℤ × ℤ := (c.x, c.z)

/-- `Chunk`'s `Ord` instance from `main.rs` lines 32–38:
`other.hash.cmp(&self.hash).then(self.x.cmp(&other.x)).then(self.z.cmp(&other.z))`,
i.e. descending hash first, then ascending x, then ascending z.
`chunkLeB a b` decides `a ≤ b` in this order. -/
def chunkLeB (a b : Chunk) : Bool :=
  decide (b.hash < a.hash) ||
    (decide (a.hash = b.hash) &&
      (decide (a.x < b.x) || (decide (a.x = b.x) && decide (a.z ≤ b.z))))

/-- Greatest element of a list under the `Chunk` order: the element a
`BinaryHeap<Chunk>` yields on `peek`/`pop`. -/
def heapMax : List Chunk → Option Chunk
  | [] => none
  | c :: cs =>
    match heapMax cs with
    | none => some c
    | some m => some (if chunkLeB m c then c else m)

/-- The configuration constants of `main` (`main.rs` lines 47–50);
the source fixes `offset = (-20, 20)`, `width = 50`,
`cluster_size = 810`, `hash_size = 2048`. -/
structure SamplerCfg where
  offx : ℤ
  offz : ℤ
  width : ℤ
  clusterSize : ℕ
  hashSize : ℕ
deriving DecidableEq, Repr

/-- `min_hash = hash_size - cluster_size` (`main.rs` line 60). -/
def minHashOf (cfg : SamplerCfg) : ℕ := sub64 cfg.hashSize cfg.clusterSize

/-- `mask = hash_size - 1` (`main.rs` line 53). -/
def maskOf (cfg : SamplerCfg) : ℕ := sub64 cfg.hashSize 1

/-- The chunks pushed for one scan column at abscissa `x`, iterating the
given list of z values (`main.rs` lines 74–85): hash each coordinate and
keep it if its hash is at least `min_hash`. -/
def colOf (cfg : SamplerCfg) (x : ℤ) (zs : List ℤ) : List Chunk :=
  zs.filterMap fun z =>
    if minHashOf cfg ≤ mix (packLong x z) &&& maskOf cfg
    then some ⟨x, z, mix (packLong x z) &&& maskOf cfg⟩ else none

/-- The z range `offset.1 .. offset.1 + width` of one column. -/
def colZs (cfg : SamplerCfg) : List ℤ :=
  (List.range cfg.width.toNat).map fun i : ℕ => cfg.offz + (i : ℤ)

/-- One full column of candidate chunks at abscissa `x`. -/
def columnChunks (cfg : SamplerCfg) (x : ℤ) : List Chunk :=
  colOf cfg x (colZs cfg)

/-- State of the sampler scan loop: the `BTreeSet` of accepted cluster
chunks, the `BinaryHeap` of potential chunks (as a list; `heapMax`
recovers the heap order), and the scanned length. -/
structure SamplerState where
  accepted : Finset Chunk
  pending : List Chunk
  length : ℤ
deriving DecidableEq

/-- The else branch of the scan loop (`main.rs` lines 72–86): push one
more column of candidates and advance `length`. -/
def addColumn (cfg : SamplerCfg) (st : SamplerState) : SamplerState :=
  { accepted := st.accepted
    pending := columnChunks cfg (st.length + cfg.offx) ++ st.pending
    length := st.length + 1 }

/-- One iteration of the scan loop body (`main.rs` lines 63–87): if the
pending chunk of lowest hash qualifies against the rising admission
bound `min_hash + accepted.len()`, accept it; otherwise scan a column. -/
def sampleStep (cfg : SamplerCfg) (st : SamplerState) : SamplerState :=
  let maxHash := minHashOf cfg + st.accepted.card
  match heapMax st.pending with
  | some c =>
    if c.hash ≤ maxHash then
      { accepted := insert c st.accepted
        pending := st.pending.erase c
        length := st.length }
    else addColumn cfg st
  | none => addColumn cfg st

/-- The scan loop `while cluster_chunks.len() < cluster_size`, with
explicit fuel; `none` means the fuel was exhausted before the loop
condition turned false (the source loop has no other exit). -/
def sampleRun (cfg : SamplerCfg) : ℕ → SamplerState → Option (Finset Chunk)
  | 0, _ => none
  | fuel + 1, st =>
    if st.accepted.card < cfg.clusterSize then
      sampleRun cfg fuel (sampleStep cfg st)
    else some st.accepted

/-- Initial sampler state (`main.rs` lines 57–61). -/
def initSampler : SamplerState := ⟨∅, [], 0⟩

/-- The property claimed of a terminated scan: exactly `cluster_size`
accepted cells, all with pairwise distinct coordinates. -/
def SamplerOutputOK (cfg : SamplerCfg) (S : Finset Chunk) : Prop :=
  S.card = cfg.clusterSize ∧ (S.image chunkCoords).card = cfg.clusterSize

/-- Loop invariant of the scan: every tracked chunk lies strictly left
of the scan frontier, pending coordinates are duplicate-free, accepted
coordinates are injective, and no coordinate is both accepted and
pending. -/
def SampInv (cfg : SamplerCfg) (st : SamplerState) : Prop :=
  (∀ c ∈ st.accepted, c.x < cfg.offx + st.length) ∧
  (∀ c ∈ st.pending, c.x < cfg.offx + st.length) ∧
  (st.pending.map chunkCoords).Nodup ∧
  (∀ c₁ ∈ st.accepted, ∀ c₂ ∈ st.accepted, chunkCoords c₁ = chunkCoords c₂ → c₁ = c₂) ∧
  (∀ c₁ ∈ st.accepted, ∀ c₂ ∈ st.pending, chunkCoords c₁ ≠ chunkCoords c₂)

/-- A configuration with an empty scan column: no candidate is ever
reachable, so a requested cluster size of 1 is unsatisfiable. -/
def noCellCfg : SamplerCfg := ⟨0, 0, 0, 1, 2048⟩

/-! ## Region encoder: palette and bit width (`lib.rs` lines 139–162) -/

/-- The air sentinel block-state name (`lib.rs` line 145). -/
def airName : String := "minecraft:air"

/-- Palette construction from `Region::to_tag` (`lib.rs` lines 144–151):
start from `{air ↦ 0}` and append each yet-unseen state with index
`palette.len()`, in the given iteration order of the blocks map.
Represented as the association list in index order. -/
def buildPalette (states : List String) : List (String × ℕ) :=
  states.foldl
    (fun p s => if (p.map Prod.fst).contains s then p else p ++ [(s, p.length)])
    [(airName, 0)]

/-- Index lookup in a palette association list. -/
def pLookup (p : List (String × ℕ)) (s : String) : Option ℕ :=
  (p.find? fun e => e.fst = s).map Prod.snd

/-- The ordered `BlockStatePalette` tag list: the state at index `i` in
position `i` (`lib.rs` lines 152–157); each entry is `{Name: state}`,
so the list of names determines it. -/
def paletteNames (states : List String) : List String :=
  (buildPalette states).map Prod.fst

/-- Bit length with explicit fuel (structural, so the kernel can
evaluate it); `bitLenAux 64` is the bit length of any `u64` value. -/
def bitLenAux : ℕ → ℕ → ℕ
  | 0, _ => 0
  | fuel + 1, n => if n = 0 then 0 else bitLenAux fuel (n / 2) + 1

/-- `u64::leading_zeros` for a value already reduced mod `2 ^ 64`. -/
def leadingZeros64 (n : ℕ) : ℕ := 64 - bitLenAux 64 n

/-- The per-voxel field bit width chosen by `Region::to_tag`
(`lib.rs` lines 158–159):
`bits = 64 - (palette.len() as u64 - 1).leading_zeros()` clamped by
`bits.min(2)`. -/
def codeBits (paletteLen : ℕ) : ℕ :=
  min (64 - leadingZeros64 (toU64 ((paletteLen : ℤ) - 1))) 2

/-- The bit width the specification prescribes:
`w = max(1, ceil(log2(paletteSize)))`. -/
def specWidth (paletteLen : ℕ) : ℕ := max 1 (Nat.clog 2 paletteLen)

/-! ## Region encoder: geometry and packing (`lib.rs` lines 139–176) -/

/-- `BlockPos` (`lib.rs` lines 5–10). -/
structure BPos where
  x : ℤ
  y : ℤ
  z : ℤ
deriving DecidableEq, Repr, Inhabited

/-- Componentwise minimum (`BlockPos::min`). -/
def bposMin (a b : BPos) : BPos := ⟨min a.x b.x, min a.y b.y, min a.z b.z⟩

/-- Componentwise maximum (`BlockPos::max`). -/
def bposMax (a b : BPos) : BPos := ⟨max a.x b.x, max a.y b.y, max a.z b.z⟩

/-- Componentwise subtraction (`impl Sub for BlockPos`). -/
def bposSub (a b : BPos) : BPos := ⟨a.x - b.x, a.y - b.y, a.z - b.z⟩

/-- A region's populated blocks, in the (run-dependent) iteration order
of the backing `HashMap<BlockPos, &BlockState>`. -/
abbrev RBlocks := List (BPos × String)

/-- `position`: componentwise minimum of all populated positions,
`BlockPos::zero()` when empty (`lib.rs` line 140). -/
def regionPosition (blocks : RBlocks) : BPos :=
  match blocks.map Prod.fst with
  | [] => ⟨0, 0, 0⟩
  | k :: ks => ks.foldl bposMin k

/-- The blocks translated so `position` becomes the origin
(`lib.rs` line 141). -/
def normBlocks (blocks : RBlocks) : RBlocks :=
  blocks.map fun e => (bposSub e.fst (regionPosition blocks), e.snd)

/-- `size`: componentwise maximum of the translated positions plus one,
zero when empty (`lib.rs` line 142). -/
def regionSize (blocks : RBlocks) : BPos :=
  match (normBlocks blocks).map Prod.fst with
  | [] => ⟨0, 0, 0⟩
  | k :: ks =>
    let m := ks.foldl bposMax k
    ⟨m.x + 1, m.y + 1, m.z + 1⟩

/-- The field width used by the encoder for these blocks. -/
def bitsOf (blocks : RBlocks) : ℕ :=
  codeBits (buildPalette (blocks.map Prod.snd)).length

/-- The linear voxel index of a translated position
(`lib.rs` lines 164–167):
`y * size.z * size.x + z * size.x + x`, all as `usize`. -/
def stateIndexOf (size : BPos) (p : BPos) : ℕ :=
  p.y.toNat * size.z.toNat * size.x.toNat + p.z.toNat * size.x.toNat + p.x.toNat

/-- The allocated length of the `BlockStates` vector (`lib.rs` line 161):
`size.x * size.y * size.z * bits / 64` with truncating division. -/
def allocLen (blocks : RBlocks) : ℕ :=
  let size := regionSize blocks
  size.x.toNat * size.y.toNat * size.z.toNat * bitsOf blocks / 64

/-- The word indices written while packing one voxel
(`lib.rs` lines 168–175): always `long_index`, and `long_index + 1`
when the field straddles a word boundary. -/
def voxelWrites (bits stateIndex : ℕ) : List ℕ :=
  let longIndex := stateIndex * bits / 64
  let bitIndex := stateIndex * bits % 64
  longIndex :: (if 64 < bitIndex + bits then [longIndex + 1] else [])

/-- All word indices written while packing a region's blocks. -/
def writeIndices (blocks : RBlocks) : List ℕ :=
  ((normBlocks blocks).map fun e =>
      voxelWrites (bitsOf blocks) (stateIndexOf (regionSize blocks) e.fst)).flatten

/-- The per-voxel packing writes of `lib.rs` lines 168–175, isolated on
a word array: `block_states[long_index] |= state_bits << bit_index`,
and when `bit_index + bits > 64` additionally
`block_states[long_index + 1] |= state_bits >> (64 - bit_index)`.
Words are `u64` values, so the first write keeps the low 64 bits. -/
def packWrite (bits stateIndex stateBits : ℕ) (ws : List ℕ) : List ℕ :=
  let longIndex := stateIndex * bits / 64
  let bitIndex := stateIndex * bits % 64
  let ws1 := ws.set longIndex ((ws.getD longIndex 0) ||| (stateBits <<< bitIndex) % 2 ^ 64)
  if 64 < bitIndex + bits then
    ws1.set (longIndex + 1) ((ws1.getD (longIndex + 1) 0) ||| stateBits >>> (64 - bitIndex))
  else ws1

/-! ## Topology classifier (`main.rs` lines 9–12, 120–140) -/

/-- `ChunkType` from `main.rs`: `Connecting` cells lie on a rasterized
tree-edge path, `Target` cells are sampled cluster chunks. -/
inductive ChunkType where
  | Connecting
  | Target
deriving DecidableEq, Repr

/-- The coordinate classification map (`HashMap<(i32, i32), ChunkType>`),
modelled by its lookup function. -/
def CMap := (ℤ × ℤ) → Option ChunkType

/-- Map insertion: later inserts overwrite earlier ones. -/
def minsert (k : ℤ × ℤ) (v : ChunkType) (m : CMap) : CMap :=
  fun q => if q = k then some v else m q

/-- Insert every listed key with the same classification, in order. -/
def insertAll (ks : List (ℤ × ℤ)) (v : ChunkType) (m : CMap) : CMap :=
  ks.foldl (fun acc k => minsert k v acc) m

/-- The inclusive integer range `lo ..= hi` as a list. -/
def intRange (lo hi : ℤ) : List ℤ :=
  (List.range (hi + 1 - lo).toNat).map fun i : ℕ => lo + (i : ℤ)

/-- The cells written while rasterizing one tree edge `(A, B)`
(`main.rs` lines 125–131): `(x, A.z)` for `x` from `min(A.x, B.x)` to
`max(A.x, B.x)`, then `(B.x, z)` for `z` from `min(A.z, B.z)` to
`max(A.z, B.z)`. -/
def edgeCells (e : Chunk × Chunk) : List (ℤ × ℤ) :=
  ((intRange (min e.1.x e.2.x) (max e.1.x e.2.x)).map fun x => (x, e.1.z)) ++
    ((intRange (min e.1.z e.2.z) (max e.1.z e.2.z)).map fun z => (e.2.x, z))

/-- Mark one edge's rasterized path as `Connecting`. -/
def markEdge (m : CMap) (e : Chunk × Chunk) : CMap :=
  insertAll (edgeCells e) ChunkType.Connecting m

/-- The classifier (`main.rs` lines 120–140): rasterize every edge as
`Connecting`, then overwrite every graph node's cell with `Target`. -/
def classify (edges : List (Chunk × Chunk)) (nodes : List Chunk) : CMap :=
  nodes.foldl (fun m n => minsert (chunkCoords n) ChunkType.Target m)
    (edges.foldl markEdge fun _ => none)

/-- A cell lies on the L-shaped rasterized path of edge `(A, B)`. -/
def onPath (p : ℤ × ℤ) (e : Chunk × Chunk) : Prop :=
  (p.2 = e.1.z ∧ min e.1.x e.2.x ≤ p.1 ∧ p.1 ≤ max e.1.x e.2.x) ∨
    (p.1 = e.2.x ∧ min e.1.z e.2.z ≤ p.2 ∧ p.2 ≤ max e.1.z e.2.z)

/-! ## Schematic serialization (`lib.rs` lines 191–253) -/

/-- A tag-tree value for the structured output (the external writer
consumes a key-value tree, cf. spec §1; only the constructors the
schematic document needs). -/
inductive NTag where
  | str (s : String)
  | int (n : ℤ)
  | compound (entries : List (String × NTag))

/-- Key-value insertion into a compound tag: replaces any previous
binding of the key. -/
def tagIns (k : String) (v : NTag) (t : List (String × NTag)) :
    List (String × NTag) :=
  (t.filter fun e => e.fst != k) ++ [(k, v)]

/-- Lookup in a compound tag. -/
def tagLookup (t : List (String × NTag)) (k : String) : Option NTag :=
  (t.find? fun e => e.fst == k).map Prod.snd

/-- A `Schematic` (`lib.rs` lines 191–196): named encoded region
documents plus the optional metadata strings. -/
structure SchematicS where
  regions : List (String × NTag)
  name : Option String
  author : Option String
  description : Option String

/-- `Schematic::to_tag` (`lib.rs` lines 224–248). The source inserts
the name, the author and the description all under the key `"Name"`
(lines 227, 230, 233), then `RegionCount`, then assembles `Metadata`,
`Regions` and `Version = 4`. -/
def schematicTag (s : SchematicS) : List (String × NTag) :=
  let md0 : List (String × NTag) := []
  let md1 := match s.name with
    | some n => tagIns "Name" (NTag.str n) md0
    | none => md0
  let md2 := match s.author with
    | some a => tagIns "Name" (NTag.str a) md1
    | none => md1
  let md3 := match s.description with
    | some d => tagIns "Name" (NTag.str d) md2
    | none => md2
  let metadata := tagIns "RegionCount" (NTag.int s.regions.length) md3
  let regions := s.regions.foldl (fun acc r => tagIns r.fst r.snd acc) []
  tagIns "Version" (NTag.int 4)
    (tagIns "Regions" (NTag.compound regions)
      (tagIns "Metadata" (NTag.compound metadata) []))

/-! ## Tree builder (`main.rs` lines 21–23, 96–113) -/

/-- `dist` (`main.rs` lines 21–23): Manhattan distance on coordinates
(named `mdist` here because Mathlib reserves `dist`). -/
def mdist (p q : ℤ × ℤ) : ℤ := |p.1 - q.1| + |p.2 - q.2|

/-- Manhattan distance between two chunks' coordinates, in the argument
order of the source call `dist(&(chunk.x, chunk.z), &(node.x, node.z))`. -/
def distC (a b : Chunk) : ℤ := mdist (a.x, a.z) (b.x, b.z)

/-- The graph node of index `i` (petgraph indices are insertion order). -/
def chunkAt (ns : List Chunk) (i : ℕ) : Chunk := ns.getD i default

/-- The inner selection of `main.rs` lines 102–106: for graph node `i`,
the first remaining candidate of minimal Manhattan distance to it
(`Iterator::min_by_key` returns the first minimum), paired with the
node index and the distance. -/
def innerPick (rem ns : List Chunk) (i : ℕ) : Option (ℕ × Chunk × ℤ) :=
  (rem.argmin fun c => distC c (chunkAt ns i)).map
    fun c => (i, c, distC c (chunkAt ns i))

/-- The outer selection of `main.rs` lines 102–107: over all graph
nodes in index order, the first per-node pick of globally minimal
distance. -/
def pickPair (ns rem : List Chunk) : Option (ℕ × Chunk × ℤ) :=
  ((List.range ns.length).filterMap (innerPick rem ns)).argmin fun t => t.2.2

/-- The tree-growing loop of `main.rs` lines 101–113, with fuel: add
the chosen candidate as a new node and record the edge
`(index_a, new_index, d)`, then remove the candidate; `buildTree`
supplies exactly enough fuel to drain the candidate set. -/
def primLoop :
    ℕ → List Chunk → List (ℕ × ℕ × ℤ) → List Chunk →
      List Chunk × List (ℕ × ℕ × ℤ)
  | 0, ns, es, _ => (ns, es)
  | fuel + 1, ns, es, rem =>
    if rem.isEmpty then (ns, es)
    else
      match pickPair ns rem with
      | none => (ns, es)
      | some (i, c, d) =>
        primLoop fuel (ns ++ [c]) (es ++ [(i, ns.length, d)]) (rem.erase c)

/-- The tree builder (`main.rs` lines 98–113): seed the graph with the
first cluster chunk (`pop_first`), then grow until every chunk is
connected. The input list is the `BTreeSet` in ascending order. -/
def buildTree : List Chunk → List Chunk × List (ℕ × ℕ × ℤ)
  | [] => ([], [])
  | c :: rest => primLoop rest.length [c] [] rest

/-! ## Spanning-tree notions for the minimality statement -/

/-- Weight of an undirected edge: the Manhattan distance between its
two endpoints. -/
def edgeW : Sym2 Chunk → ℤ :=
  Sym2.lift ⟨fun a b => distC a b, by
    intro a b
    simp only [distC, mdist]
    rw [abs_sub_comm, abs_sub_comm a.z]⟩

/-- One-step adjacency in an undirected edge set. -/
def stepRel (E : Finset (Sym2 Chunk)) (a b : Chunk) : Prop := s(a, b) ∈ E

/-- Reachability in an undirected edge set. -/
def reach (E : Finset (Sym2 Chunk)) (a b : Chunk) : Prop :=
  Relation.ReflTransGen (stepRel E) a b

/-- Every two vertices of `V` are joined by a path in `E`. -/
def connectedOn (V : Finset Chunk) (E : Finset (Sym2 Chunk)) : Prop :=
  ∀ a ∈ V, ∀ b ∈ V, reach E a b

/-- Every endpoint of every edge lies in `V`. -/
def edgesWithin (V : Finset Chunk) (E : Finset (Sym2 Chunk)) : Prop :=
  ∀ e ∈ E, ∀ x ∈ e, x ∈ V

/-- A spanning tree of the complete graph on `V`: loop-free edges
inside `V`, connecting all of `V`, of cardinality `|V| - 1`. -/
def isSpanningTree (V : Finset Chunk) (E : Finset (Sym2 Chunk)) : Prop :=
  edgesWithin V E ∧ (∀ e ∈ E, ¬e.IsDiag) ∧ connectedOn V E ∧ E.card = V.card - 1

/-- Total weight of an edge set. -/
def treeWeight (E : Finset (Sym2 Chunk)) : ℤ := ∑ e ∈ E, edgeW e

/-- The undirected edge determined by one recorded edge triple. -/
def edgeSym (ns : List Chunk) (t : ℕ × ℕ × ℤ) : Sym2 Chunk :=
  s(chunkAt ns t.1, chunkAt ns t.2.1)

/-- The edge set of the built tree. -/
def treeES (ns : List Chunk) (es : List (ℕ × ℕ × ℤ)) : Finset (Sym2 Chunk) :=
  (es.map (edgeSym ns)).toFinset

/-- The claimed properties of the tree builder's output on `cs`:
`|cs| - 1` recorded edges, each weighted by the Manhattan distance of
its endpoints, a connected spanning tree of the complete graph on `cs`,
of minimal total weight among all its spanning trees. -/
def TreeBuilderOK (cs : List Chunk) : Prop :=
  (buildTree cs).2.length = cs.length - 1 ∧
  (∀ t ∈ (buildTree cs).2,
    t.1 < (buildTree cs).1.length ∧ t.2.1 < (buildTree cs).1.length ∧
    t.2.2 = distC (chunkAt (buildTree cs).1 t.2.1) (chunkAt (buildTree cs).1 t.1)) ∧
  connectedOn cs.toFinset (treeES (buildTree cs).1 (buildTree cs).2) ∧
  isSpanningTree cs.toFinset (treeES (buildTree cs).1 (buildTree cs).2) ∧
  ∀ T, isSpanningTree cs.toFinset T →
    treeWeight (treeES (buildTree cs).1 (buildTree cs).2) ≤ treeWeight T

/-- Invariant of the tree-growing loop: the nodes and remaining
candidates partition the input, the recorded edges form a connected
tree on the current nodes, and the current edge set extends to a
spanning tree of the input that is at most as heavy as any given one. -/
structure PrimInv (cs ns : List Chunk) (es : List (ℕ × ℕ × ℤ))
    (rem : List Chunk) : Prop where
  ne : ns ≠ []
  perm : (ns ++ rem).Perm cs
  edges_lt : ∀ t ∈ es, t.1 < ns.length ∧ t.2.1 < ns.length
  edges_w : ∀ t ∈ es, t.2.2 = distC (chunkAt ns t.2.1) (chunkAt ns t.1)
  edges_ne : ∀ t ∈ es, chunkAt ns t.1 ≠ chunkAt ns t.2.1
  len : es.length = ns.length - 1
  within : edgesWithin ns.toFinset (treeES ns es)
  conn : connectedOn ns.toFinset (treeES ns es)
  card_es : (treeES ns es).card = es.length
  mst : ∀ T, isSpanningTree cs.toFinset T →
    ∃ Tb, isSpanningTree cs.toFinset Tb ∧ treeES ns es ⊆ Tb ∧
      treeWeight Tb ≤ treeWeight T

/-! ## Concrete instances used as witnesses and counterexamples -/

/-- The number of 64-bit words a non-truncating (ceiling) allocation of
the `BlockStates` vector would need. -/
def ceilAlloc (blocks : RBlocks) : ℕ :=
  let size := regionSize blocks
  (size.x.toNat * size.y.toNat * size.z.toNat * bitsOf blocks + 63) / 64

/-- A tiny satisfiable configuration: one column of one cell, cluster
size 1, hash space 1 (mask 0). -/
def tinyCfg : SamplerCfg := ⟨0, 0, 1, 1, 1⟩

/-- The single cell found under `tinyCfg`. -/
def tinyChunk : Chunk := ⟨0, 0, 0⟩

/-- A region holding exactly one populated block. -/
def oneBlock : RBlocks := [(⟨0, 0, 0⟩, "minecraft:chest")]

/-- A region holding two blocks of two distinct states. -/
def twoBlocks : RBlocks :=
  [(⟨0, 0, 0⟩, "minecraft:chest"), (⟨1, 0, 0⟩, "minecraft:concrete")]

/-- The two-state block map in one `HashMap` iteration order. -/
def runOrder1 : RBlocks :=
  [(⟨0, 0, 0⟩, "minecraft:chest"), (⟨1, 0, 0⟩, "minecraft:concrete")]

/-- The same block map in the opposite iteration order. -/
def runOrder2 : RBlocks :=
  [(⟨1, 0, 0⟩, "minecraft:concrete"), (⟨0, 0, 0⟩, "minecraft:chest")]

/-- A schematic with name, author and description all set. -/
def demoSchem : SchematicS := ⟨[], some "n", some "a", some "d"⟩

/-- Two cluster chunks for the classifier demo. -/
def demoA : Chunk := ⟨0, 0, 0⟩

/-- Second classifier demo chunk. -/
def demoB : Chunk := ⟨1, 1, 0⟩

/-- The demo tree edge list. -/
def demoEdges : List (Chunk × Chunk) := [(demoA, demoB)]

/-- The demo node list. -/
def demoNodes : List Chunk := [demoA, demoB]

/-- Two distinct chunks for the tree-builder witness. -/
def twoChunks : List Chunk := [⟨0, 0, 0⟩, ⟨3, 1, 0⟩]

/-- The last vertex of the walk `u :: l`. -/
def endOf : Chunk → List Chunk → Chunk
  | u, [] => u
  | _, w :: m => endOf w m

/-! # Theorems -/

/-! ## C2 — palette bit width (`lib.rs` lines 158–159) -/

/-- C2: the claim says the encoder chooses
`w = max(1, ceil(log2(paletteSize)))`, so a 5-entry palette gets at
least 3 bits. The code instead clamps the width to 2 bits
(`bits.min(2)`), so palette index 4 is not representable in its field:
the code width for a 5-entry palette is 2 while the specified width is
3, and `2 ^ 2 ≤ 4`. -/
theorem c2_width_clamped :
    codeBits 5 = 2 ∧ specWidth 5 = 3 ∧ 2 ^ codeBits 5 ≤ 4 := by
  refine ⟨by decide, ?_, by decide⟩
  have h1 : Nat.clog 2 5 ≤ 3 := by
    rw [← Nat.le_pow_iff_clog_le (by norm_num)]
    norm_num
  have h2 : ¬Nat.clog 2 5 ≤ 2 := by
    intro h
    rw [← Nat.le_pow_iff_clog_le (by norm_num)] at h
    norm_num at h
  have : Nat.clog 2 5 = 3 := by omega
  simp [specWidth, this]

/-! ## C4 — absence of a scan-area cap (`main.rs` lines 63–88) -/

/-- Any state with no accepted and no pending chunks loops forever under
`noCellCfg`: each iteration only advances the frontier. -/
theorem noCell_run_none (fuel : ℕ) :
    ∀ n : ℤ, sampleRun noCellCfg fuel ⟨∅, [], n⟩ = none := by
  induction fuel with
  | zero => intro n; rfl
  | succ f ih =>
    intro n
    have hstep : sampleStep noCellCfg ⟨∅, [], n⟩ = ⟨∅, [], n + 1⟩ := by
      simp [sampleStep, heapMax, addColumn, columnChunks, colZs, colOf, noCellCfg]
    have hlt : (∅ : Finset Chunk).card < noCellCfg.clusterSize := by decide
    simp only [sampleRun, hlt, if_true, hstep]
    exact ih (n + 1)

/-- C4: the scan loop has no max-scan-area cap and no failure path.
When the requested cluster size (1) exceeds the reachable population
(0 qualifying cells under `noCellCfg`), the loop never terminates: for
every amount of fuel it is still running — it neither produces output
nor reports an "unsatisfiable cluster size" error, because no such
error exists in the code. -/
theorem c4_no_scan_cap (fuel : ℕ) :
    sampleRun noCellCfg fuel initSampler = none :=
  noCell_run_none fuel 0

/-! ## C5 — cross-run determinism of `Region::to_tag` -/

/-- C5: the palette is built by iterating the blocks `HashMap`
(`lib.rs` line 147), whose iteration order Rust randomizes per process.
Two iteration orders of the *same* block map (the lists are
permutations of each other) produce different `BlockStatePalette`
orders, so two runs with identical configuration and hash function need
not produce byte-identical structured output. -/
theorem c5_palette_depends_on_iteration_order :
    runOrder1.Perm runOrder2 ∧
      paletteNames (runOrder1.map Prod.snd) ≠ paletteNames (runOrder2.map Prod.snd) := by
  constructor
  · decide
  · decide

/-! ## C7 — the cross-word packing example (`lib.rs` lines 163–176) -/

/-- C7 counterexample: packing value 4 (`0b100`) with 3-bit fields at
linear index 21 does *not* set bit 63 of word 0 and does *not* set bit
0 of word 1 — the field's low bit (0) lands at bit 63 of word 0 and
its high bits (`0b10`) at bits 0–1 of word 1, so only bit 1 of word 1
is set: the result on zeroed words is `[0, 2]`. -/
theorem c7_bit63_not_set :
    packWrite 3 21 4 [0, 0] = [0, 2] ∧
      ¬(Nat.testBit ((packWrite 3 21 4 [0, 0]).getD 0 0) 63 = true ∧
        Nat.testBit ((packWrite 3 21 4 [0, 0]).getD 1 0) 0 = true) := by
  decide

/-- C7 amended: with 3-bit fields, linear index 21 addresses word
`21 * 3 / 64 = 0` at bit offset 63, and the field is split across the
word boundary — word 0 receives the field's low bit at bit 63 and word
1 receives the remaining bits at bits 0–1; i.e. the written words are
`v % 2 * 2 ^ 63` and `v / 2`. -/
theorem c7_field_split (v : ℕ) (hv : v < 8) :
    21 * 3 / 64 = 0 ∧ 21 * 3 % 64 = 63 ∧
      packWrite 3 21 v [0, 0] = [v % 2 * 2 ^ 63, v / 2] := by
  interval_cases v <;> exact ⟨by decide, by decide, by decide⟩

/-- Witness for `c7_field_split` at the claim's value 4. -/
theorem c7_field_split_witness :
    21 * 3 / 64 = 0 ∧ 21 * 3 % 64 = 63 ∧
      packWrite 3 21 4 [0, 0] = [4 % 2 * 2 ^ 63, 4 / 2] :=
  c7_field_split 4 (by decide)

/-! ## C8 — bounds of the packing writes (`lib.rs` lines 161–176) -/

/-- C8 counterexample: a region with a single populated block allocates
`1 * 1 * 1 * 1 / 64 = 0` words (truncating division, `lib.rs` line
161) yet packs the voxel at word index 0 — the write is out of
bounds. -/
theorem c8_write_out_of_bounds :
    ¬∀ i ∈ writeIndices oneBlock, i < allocLen oneBlock := by decide

/-! ## C10 — schematic version and metadata (`lib.rs` lines 224–248) -/

/-- C10: the serialized document does carry `Version = 4`, but when
name, author and description are all set, `Schematic::to_tag` inserts
all three under the single key `"Name"` (`lib.rs` lines 227, 230, 233),
so the metadata holds only the description (the last write) together
with the region count — the name and author are not retrievable and no
`Author`/`Description` entries exist. -/
theorem c10_metadata_collapsed :
    tagLookup (schematicTag demoSchem) "Version" = some (NTag.int 4) ∧
    tagLookup (schematicTag demoSchem) "Metadata" =
      some (NTag.compound [("Name", NTag.str "d"), ("RegionCount", NTag.int 0)]) ∧
    tagLookup [("Name", NTag.str "d"), ("RegionCount", NTag.int 0)] "Author" = none ∧
    tagLookup [("Name", NTag.str "d"), ("RegionCount", NTag.int 0)] "Name" =
      some (NTag.str "d") := by
  exact ⟨rfl, rfl, rfl, rfl⟩

/-! ## C9 — palette index 0 is air (`lib.rs` lines 144–151) -/

/-- Structural invariant of palette construction: the first entry is
`(air, 0)`, the indices are exactly `0 .. length - 1` in order, and the
state names are duplicate-free. -/
def PalInv (p : List (String × ℕ)) : Prop :=
  p.head? = some (airName, 0) ∧ p.map Prod.snd = List.range p.length ∧
    (p.map Prod.fst).Nodup

theorem palInv_step (p : List (String × ℕ)) (s : String) (h : PalInv p) :
    PalInv (if (p.map Prod.fst).contains s then p else p ++ [(s, p.length)]) := by
  obtain ⟨h1, h2, h3⟩ := h
  by_cases hc : (p.map Prod.fst).contains s = true
  · rw [if_pos hc]
    exact ⟨h1, h2, h3⟩
  · have hs : s ∉ p.map Prod.fst := by
      intro hmem
      exact hc (by simpa using hmem)
    rw [if_neg hc]
    refine ⟨?_, ?_, ?_⟩
    · rw [List.head?_append, h1]; rfl
    · rw [List.map_append, h2, List.length_append]
      simp [List.range_succ]
    · rw [List.map_append]
      refine List.Nodup.append h3 (by simp) ?_
      intro a ha hb
      simp only [List.map_cons, List.map_nil, List.mem_singleton] at hb
      subst hb
      exact hs ha

theorem palInv_buildPalette (states : List String) : PalInv (buildPalette states) := by
  unfold buildPalette
  have hstart : PalInv [(airName, 0)] := ⟨rfl, rfl, by simp⟩
  revert hstart
  generalize [(airName, (0 : ℕ))] = p
  induction states generalizing p with
  | nil => intro h; exact h
  | cons s ss ih =>
    intro h
    exact ih _ (palInv_step p s h)

theorem palInv_entry_unique (p : List (String × ℕ)) (h : PalInv p) :
    ∀ e₁ ∈ p, ∀ e₂ ∈ p, e₁.snd = e₂.snd → e₁ = e₂ := by
  have hnd : (p.map Prod.snd).Nodup := by rw [h.2.1]; exact List.nodup_range _
  exact fun e₁ h₁ e₂ h₂ he => List.inj_on_of_nodup_map hnd h₁ h₂ he

theorem pLookup_some_iff (p : List (String × ℕ)) (s : String) (i : ℕ)
    (h : pLookup p s = some i) : ∃ e ∈ p, e.fst = s ∧ e.snd = i := by
  unfold pLookup at h
  cases hf : p.find? (fun e => e.fst = s) with
  | none => rw [hf] at h; simp at h
  | some e =>
    rw [hf] at h
    simp only [Option.map_some', Option.some.injEq] at h
    exact ⟨e, List.mem_of_find?_eq_some hf, by simpa using List.find?_some hf, h⟩

theorem pLookup_air (p : List (String × ℕ)) (h : PalInv p) :
    pLookup p airName = some 0 := by
  have h1 := h.1
  cases p with
  | nil => simp at h1
  | cons e rest =>
    simp only [List.head?_cons, Option.some.injEq] at h1
    subst h1
    rfl

theorem palInv_air_mem (p : List (String × ℕ)) (h : PalInv p) :
    (airName, 0) ∈ p := by
  have h1 := h.1
  cases p with
  | nil => simp at h1
  | cons e rest =>
    simp only [List.head?_cons, Option.some.injEq] at h1
    rw [← h1]
    exact List.mem_cons_self e rest

/-- C9: in every palette the encoder builds, index 0 is the air
sentinel: looking up air yields 0, any state mapped to 0 is air (so no
other state receives 0), non-air states get indices ≥ 1, and indices
are assigned injectively. -/
theorem c9_palette_zero_air (states : List String) :
    pLookup (buildPalette states) airName = some 0 ∧
    ∀ s i, pLookup (buildPalette states) s = some i →
      (i = 0 → s = airName) ∧ (s ≠ airName → 1 ≤ i) ∧
      ∀ t, pLookup (buildPalette states) t = some i → t = s := by
  have hinv := palInv_buildPalette states
  refine ⟨pLookup_air _ hinv, ?_⟩
  intro s i h
  obtain ⟨e, he, hefst, hesnd⟩ := pLookup_some_iff _ _ _ h
  have hzero : i = 0 → s = airName := by
    intro hi
    have : e = (airName, 0) :=
      palInv_entry_unique _ hinv e he (airName, 0) (palInv_air_mem _ hinv)
        (by rw [hesnd, hi])
    rw [← hefst, this]
  refine ⟨hzero, ?_, ?_⟩
  · intro hs
    rcases Nat.eq_zero_or_pos i with hi | hi
    · exact absurd (hzero hi) hs
    · exact hi
  · intro t ht
    obtain ⟨e', he', hefst', hesnd'⟩ := pLookup_some_iff _ _ _ ht
    have : e' = e :=
      palInv_entry_unique _ hinv e' he' e he (by rw [hesnd, hesnd'])
    rw [← hefst', ← hefst, this]

/-- Witness for `c9_palette_zero_air` on a one-state block list. -/
theorem c9_palette_witness :
    pLookup (buildPalette ["minecraft:chest"]) airName = some 0 ∧ 1 ≤ 1 := by
  have h := c9_palette_zero_air ["minecraft:chest"]
  exact ⟨h.1, (h.2 "minecraft:chest" 1 (by decide)).2.1 (by decide)⟩

/-! ## C6 — topology classifier (`main.rs` lines 120–140) -/

theorem insertAll_not_mem (ks : List (ℤ × ℤ)) (v : ChunkType) :
    ∀ (m : CMap) (q : ℤ × ℤ), q ∉ ks → insertAll ks v m q = m q := by
  induction ks with
  | nil => intro m q _; rfl
  | cons k ks ih =>
    intro m q h
    simp only [List.mem_cons, not_or] at h
    unfold insertAll at ih ⊢
    simp only [List.foldl_cons]
    rw [ih (minsert k v m) q h.2]
    simp [minsert, h.1]

theorem insertAll_mem (ks : List (ℤ × ℤ)) (v : ChunkType) :
    ∀ (m : CMap) (q : ℤ × ℤ), q ∈ ks → insertAll ks v m q = some v := by
  induction ks with
  | nil => intro m q h; simp at h
  | cons k ks ih =>
    intro m q h
    unfold insertAll at ih ⊢
    simp only [List.foldl_cons]
    by_cases hq : q ∈ ks
    · exact ih _ q hq
    · have hk : q = k := by
        rcases List.mem_cons.mp h with h' | h'
        · exact h'
        · exact absurd h' hq
      have := insertAll_not_mem ks v (minsert k v m) q hq
      unfold insertAll at this
      rw [this]
      simp [minsert, hk]

theorem edgeFold_not_touched (edges : List (Chunk × Chunk)) :
    ∀ (m : CMap) (q : ℤ × ℤ), (∀ e ∈ edges, q ∉ edgeCells e) →
      edges.foldl markEdge m q = m q := by
  induction edges with
  | nil => intro m q _; rfl
  | cons e es ih =>
    intro m q h
    simp only [List.foldl_cons]
    rw [ih _ q fun e' he' => h e' (List.mem_cons_of_mem e he')]
    exact insertAll_not_mem _ _ _ _ (h e (List.mem_cons_self e es))

theorem edgeFold_touched (edges : List (Chunk × Chunk)) :
    ∀ (m : CMap) (q : ℤ × ℤ), (∃ e ∈ edges, q ∈ edgeCells e) →
      edges.foldl markEdge m q = some ChunkType.Connecting := by
  induction edges with
  | nil => rintro m q ⟨e, he, _⟩; simp at he
  | cons e es ih =>
    intro m q h
    simp only [List.foldl_cons]
    by_cases hq : ∃ e' ∈ es, q ∈ edgeCells e'
    · exact ih _ q hq
    · push_neg at hq
      rcases h with ⟨e', he', hqe'⟩
      rcases List.mem_cons.mp he' with rfl | hmem
      · rw [edgeFold_not_touched es _ q hq]
        exact insertAll_mem _ _ _ _ hqe'
      · exact absurd hqe' (hq e' hmem)

theorem nodeFold_eq (nodes : List Chunk) (m : CMap) :
    nodes.foldl (fun m n => minsert (chunkCoords n) ChunkType.Target m) m =
      insertAll (nodes.map chunkCoords) ChunkType.Target m := by
  unfold insertAll
  rw [List.foldl_map]

theorem intRange_mem (lo hi a : ℤ) : a ∈ intRange lo hi ↔ lo ≤ a ∧ a ≤ hi := by
  unfold intRange
  simp only [List.mem_map, List.mem_range]
  constructor
  · rintro ⟨i, hi, rfl⟩
    omega
  · rintro ⟨h1, h2⟩
    exact ⟨(a - lo).toNat, by omega, by omega⟩

theorem edgeCells_mem (q : ℤ × ℤ) (e : Chunk × Chunk) :
    q ∈ edgeCells e ↔ onPath q e := by
  unfold edgeCells onPath
  simp only [List.mem_append, List.mem_map, intRange_mem]
  constructor
  · rintro (⟨x, ⟨hx1, hx2⟩, rfl⟩ | ⟨z, ⟨hz1, hz2⟩, rfl⟩)
    · exact Or.inl ⟨rfl, hx1, hx2⟩
    · exact Or.inr ⟨rfl, hz1, hz2⟩
  · rintro (⟨h1, h2, h3⟩ | ⟨h1, h2, h3⟩)
    · exact Or.inl ⟨q.1, ⟨h2, h3⟩, by rw [← h1]⟩
    · exact Or.inr ⟨q.2, ⟨h2, h3⟩, by rw [← h1]⟩

/-- C6: after rasterizing every tree edge as `Connecting` and then
marking every member as `Target`, the final map sends every member's
cell to `Target` (the member marking overwrites any `Connecting` mark),
and every cell on some edge's L-shaped rasterized path that is not a
member's cell to `Connecting`. -/
theorem c6_classifier (edges : List (Chunk × Chunk)) (nodes : List Chunk) :
    (∀ c ∈ nodes, classify edges nodes (chunkCoords c) = some ChunkType.Target) ∧
    ∀ p : ℤ × ℤ, (∃ e ∈ edges, onPath p e) → (∀ c ∈ nodes, chunkCoords c ≠ p) →
      classify edges nodes p = some ChunkType.Connecting := by
  constructor
  · intro c hc
    unfold classify
    rw [nodeFold_eq]
    exact insertAll_mem _ _ _ _ (List.mem_map_of_mem chunkCoords hc)
  · intro p hp hnot
    unfold classify
    rw [nodeFold_eq]
    have hnp : p ∉ nodes.map chunkCoords := by
      simp only [List.mem_map]
      rintro ⟨c, hc, heq⟩
      exact hnot c hc heq
    rw [insertAll_not_mem _ _ _ _ hnp]
    rcases hp with ⟨e, he, hpath⟩
    exact edgeFold_touched _ _ _ ⟨e, he, (edgeCells_mem p e).mpr hpath⟩

/-- Witness for `c6_classifier`: on the single edge from `(0,0)` to
`(1,1)`, the member cell `(0,0)` is `Target` and the path corner cell
`(1,0)` is `Connecting`. -/
theorem c6_classifier_witness :
    classify demoEdges demoNodes (chunkCoords demoA) = some ChunkType.Target ∧
    classify demoEdges demoNodes (1, 0) = some ChunkType.Connecting := by
  have h := c6_classifier demoEdges demoNodes
  refine ⟨h.1 demoA (by decide), ?_⟩
  refine h.2 (1, 0) ⟨(demoA, demoB), by decide, Or.inl ⟨by decide, by decide, by decide⟩⟩ ?_
  decide

/-! ## C8 — in-bounds packing under a ceiling allocation -/

theorem foldl_bposMin_le_init (ks : List BPos) :
    ∀ k : BPos, (ks.foldl bposMin k).x ≤ k.x ∧ (ks.foldl bposMin k).y ≤ k.y ∧
      (ks.foldl bposMin k).z ≤ k.z := by
  induction ks with
  | nil => intro k; exact ⟨le_refl _, le_refl _, le_refl _⟩
  | cons j js ih =>
    intro k
    simp only [List.foldl_cons]
    obtain ⟨h1, h2, h3⟩ := ih (bposMin k j)
    unfold bposMin at h1 h2 h3
    exact ⟨le_trans h1 (min_le_left _ _), le_trans h2 (min_le_left _ _),
      le_trans h3 (min_le_left _ _)⟩

theorem foldl_bposMin_le (ks : List BPos) :
    ∀ (k p : BPos), p ∈ ks → (ks.foldl bposMin k).x ≤ p.x ∧
      (ks.foldl bposMin k).y ≤ p.y ∧ (ks.foldl bposMin k).z ≤ p.z := by
  induction ks with
  | nil => intro k p h; simp at h
  | cons j js ih =>
    intro k p h
    simp only [List.foldl_cons]
    rcases List.mem_cons.mp h with rfl | hmem
    · obtain ⟨h1, h2, h3⟩ := foldl_bposMin_le_init js (bposMin k p)
      unfold bposMin at h1 h2 h3
      exact ⟨le_trans h1 (min_le_right _ _), le_trans h2 (min_le_right _ _),
        le_trans h3 (min_le_right _ _)⟩
    · exact ih _ p hmem

theorem foldl_bposMax_ge_init (ks : List BPos) :
    ∀ k : BPos, k.x ≤ (ks.foldl bposMax k).x ∧ k.y ≤ (ks.foldl bposMax k).y ∧
      k.z ≤ (ks.foldl bposMax k).z := by
  induction ks with
  | nil => intro k; exact ⟨le_refl _, le_refl _, le_refl _⟩
  | cons j js ih =>
    intro k
    simp only [List.foldl_cons]
    obtain ⟨h1, h2, h3⟩ := ih (bposMax k j)
    unfold bposMax at h1 h2 h3
    exact ⟨le_trans (le_max_left _ _) h1, le_trans (le_max_left _ _) h2,
      le_trans (le_max_left _ _) h3⟩

theorem foldl_bposMax_ge (ks : List BPos) :
    ∀ (k p : BPos), p ∈ ks → p.x ≤ (ks.foldl bposMax k).x ∧
      p.y ≤ (ks.foldl bposMax k).y ∧ p.z ≤ (ks.foldl bposMax k).z := by
  induction ks with
  | nil => intro k p h; simp at h
  | cons j js ih =>
    intro k p h
    simp only [List.foldl_cons]
    rcases List.mem_cons.mp h with rfl | hmem
    · obtain ⟨h1, h2, h3⟩ := foldl_bposMax_ge_init js (bposMax k p)
      unfold bposMax at h1 h2 h3
      exact ⟨le_trans (le_max_right _ _) h1, le_trans (le_max_right _ _) h2,
        le_trans (le_max_right _ _) h3⟩
    · exact ih _ p hmem

theorem regionPosition_le (blocks : RBlocks) (p : BPos)
    (hp : p ∈ blocks.map Prod.fst) :
    (regionPosition blocks).x ≤ p.x ∧ (regionPosition blocks).y ≤ p.y ∧
      (regionPosition blocks).z ≤ p.z := by
  unfold regionPosition
  cases hb : blocks.map Prod.fst with
  | nil => rw [hb] at hp; simp at hp
  | cons k ks =>
    rw [hb] at hp
    rcases List.mem_cons.mp hp with rfl | hmem
    · exact foldl_bposMin_le_init ks p
    · exact foldl_bposMin_le ks k p hmem

theorem normBlocks_bounds (blocks : RBlocks) (e : BPos × String)
    (he : e ∈ normBlocks blocks) :
    0 ≤ e.1.x ∧ 0 ≤ e.1.y ∧ 0 ≤ e.1.z ∧
      e.1.x < (regionSize blocks).x ∧ e.1.y < (regionSize blocks).y ∧
      e.1.z < (regionSize blocks).z := by
  have hnn : 0 ≤ e.1.x ∧ 0 ≤ e.1.y ∧ 0 ≤ e.1.z := by
    unfold normBlocks at he
    rw [List.mem_map] at he
    obtain ⟨⟨p, s⟩, hps, rfl⟩ := he
    obtain ⟨h1, h2, h3⟩ := regionPosition_le blocks p (List.mem_map_of_mem Prod.fst hps)
    unfold bposSub
    refine ⟨by simpa using h1, by simpa using h2, by simpa using h3⟩
  have hmem : e.1 ∈ (normBlocks blocks).map Prod.fst := List.mem_map_of_mem Prod.fst he
  refine ⟨hnn.1, hnn.2.1, hnn.2.2, ?_, ?_, ?_⟩ <;>
  · unfold regionSize
    cases hb : (normBlocks blocks).map Prod.fst with
    | nil => rw [hb] at hmem; simp at hmem
    | cons k ks =>
      rw [hb] at hmem
      rcases List.mem_cons.mp hmem with heq | hmem'
      · have := foldl_bposMax_ge_init ks e.1
        rw [← heq]
        simp only
        omega
      · have := foldl_bposMax_ge ks k e.1 hmem'
        simp only
        omega

theorem stateIndexOf_lt (blocks : RBlocks) (e : BPos × String)
    (he : e ∈ normBlocks blocks) :
    stateIndexOf (regionSize blocks) e.1 <
      (regionSize blocks).x.toNat * (regionSize blocks).y.toNat *
        (regionSize blocks).z.toNat := by
  obtain ⟨h0x, h0y, h0z, hx, hy, hz⟩ := normBlocks_bounds blocks e he
  unfold stateIndexOf
  have hxx : e.1.x.toNat < (regionSize blocks).x.toNat := by omega
  have hyy : e.1.y.toNat < (regionSize blocks).y.toNat := by omega
  have hzz : e.1.z.toNat < (regionSize blocks).z.toNat := by omega
  set a := e.1.y.toNat
  set b := e.1.z.toNat
  set c := e.1.x.toNat
  set A := (regionSize blocks).y.toNat
  set B := (regionSize blocks).z.toNat
  set C := (regionSize blocks).x.toNat
  have h1 : c + 1 ≤ C := hxx
  have h2 : b + 1 ≤ B := hzz
  have h3 : a + 1 ≤ A := hyy
  have key : a * B * C + b * C + c + 1 ≤ C * A * B := by
    calc a * B * C + b * C + c + 1 ≤ a * B * C + b * C + C := by omega
      _ = a * B * C + (b + 1) * C := by ring
      _ ≤ a * B * C + B * C := by
          have := Nat.mul_le_mul_right C h2
          omega
      _ = (a + 1) * (B * C) := by ring
      _ ≤ A * (B * C) := Nat.mul_le_mul_right _ h3
      _ = C * A * B := by ring
  omega

/-- C8 amended: had the `BlockStates` vector been allocated with a
ceiling division `⌈size.x * size.y * size.z * bits / 64⌉` (and with a
field width of at least one bit), every packing write — including the
spill write at `long_index + 1` when a field straddles a 64-bit word
boundary — would stay in bounds. The actual allocation truncates
(`lib.rs` line 161), which `c8_write_out_of_bounds` shows is too
short. -/
theorem c8_ceil_alloc_safe (blocks : RBlocks) (hb : 1 ≤ bitsOf blocks) :
    ∀ i ∈ writeIndices blocks, i < ceilAlloc blocks := by
  intro i hi
  unfold writeIndices at hi
  rw [List.mem_flatten] at hi
  obtain ⟨l, hl, hil⟩ := hi
  rw [List.mem_map] at hl
  obtain ⟨e, he, rfl⟩ := hl
  have hsi := stateIndexOf_lt blocks e he
  set bits := bitsOf blocks with hbits
  set si := stateIndexOf (regionSize blocks) e.1 with hsidef
  set N := (regionSize blocks).x.toNat * (regionSize blocks).y.toNat *
    (regionSize blocks).z.toNat with hN
  have hceil : ceilAlloc blocks = (N * bits + 63) / 64 := rfl
  have hsib : si * bits + bits ≤ N * bits := by
    have h2 := Nat.mul_le_mul_right bits (Nat.succ_le_of_lt hsi)
    rwa [Nat.succ_mul] at h2
  have hdm := Nat.div_add_mod (si * bits) 64
  have hmlt : si * bits % 64 < 64 := Nat.mod_lt _ (by norm_num)
  unfold voxelWrites at hil
  simp only at hil
  rw [hceil]
  by_cases hc : 64 < si * bits % 64 + bits
  · rw [if_pos hc] at hil
    rcases List.mem_cons.mp hil with rfl | hil'
    · omega
    · rw [List.mem_singleton] at hil'
      subst hil'
      omega
  · rw [if_neg hc] at hil
    rcases List.mem_cons.mp hil with rfl | hil'
    · omega
    · simp at hil'

/-- Witness for `c8_ceil_alloc_safe` on the two-block region. -/
theorem c8_ceil_alloc_witness : 0 < ceilAlloc twoBlocks :=
  c8_ceil_alloc_safe twoBlocks (by decide) 0 (by decide)

/-! ## C1 — the scan loop accepts exactly K distinct coordinates -/

theorem heapMax_mem (l : List Chunk) : ∀ c, heapMax l = some c → c ∈ l := by
  induction l with
  | nil => intro c h; simp [heapMax] at h
  | cons a as ih =>
    intro c h
    rw [heapMax] at h
    cases hm : heapMax as with
    | none =>
      rw [hm] at h
      simp only [Option.some.injEq] at h
      subst h
      exact List.mem_cons_self _ _
    | some m =>
      rw [hm] at h
      simp only [Option.some.injEq] at h
      by_cases hle : chunkLeB m a = true
      · rw [if_pos hle] at h
        subst h
        exact List.mem_cons_self _ _
      · rw [if_neg hle] at h
        subst h
        exact List.mem_cons_of_mem _ (ih m hm)

theorem colOf_mem (cfg : SamplerCfg) (x : ℤ) (zs : List ℤ) (c : Chunk)
    (h : c ∈ colOf cfg x zs) : c.x = x ∧ c.z ∈ zs := by
  unfold colOf at h
  rw [List.mem_filterMap] at h
  obtain ⟨z, hz, hc⟩ := h
  by_cases hge : minHashOf cfg ≤ mix (packLong x z) &&& maskOf cfg
  · rw [if_pos hge] at hc
    cases hc
    exact ⟨rfl, hz⟩
  · rw [if_neg hge] at hc
    cases hc

theorem colOf_coords_nodup (cfg : SamplerCfg) (x : ℤ) (zs : List ℤ)
    (h : zs.Nodup) : ((colOf cfg x zs).map chunkCoords).Nodup := by
  induction zs with
  | nil => simp [colOf]
  | cons z zs ih =>
    rw [List.nodup_cons] at h
    by_cases hge : minHashOf cfg ≤ mix (packLong x z) &&& maskOf cfg
    · have hcons : colOf cfg x (z :: zs) =
          ⟨x, z, mix (packLong x z) &&& maskOf cfg⟩ :: colOf cfg x zs := by
        unfold colOf
        rw [List.filterMap_cons]
        simp only [if_pos hge]
      rw [hcons, List.map_cons, List.nodup_cons]
      refine ⟨?_, ih h.2⟩
      rw [List.mem_map]
      rintro ⟨c, hc, hcoords⟩
      have hcz : c.z = z := congrArg Prod.snd hcoords
      exact h.1 (hcz ▸ (colOf_mem cfg x zs c hc).2)
    · have hcons : colOf cfg x (z :: zs) = colOf cfg x zs := by
        unfold colOf
        rw [List.filterMap_cons]
        simp only [if_neg hge]
      rw [hcons]
      exact ih h.2

theorem colZs_nodup (cfg : SamplerCfg) : (colZs cfg).Nodup := by
  unfold colZs
  refine List.Nodup.map ?_ (List.nodup_range _)
  intro a b hab
  simp only at hab
  omega

theorem addColumn_inv (cfg : SamplerCfg) (st : SamplerState) (h : SampInv cfg st) :
    SampInv cfg (addColumn cfg st) := by
  obtain ⟨hb1, hb2, hnd, hinj, hdisj⟩ := h
  have hcol_mem : ∀ c ∈ columnChunks cfg (st.length + cfg.offx),
      c.x = st.length + cfg.offx := fun c hc => (colOf_mem _ _ _ c hc).1
  refine ⟨?_, ?_, ?_, hinj, ?_⟩
  · intro c hc
    have := hb1 c hc
    simp only [addColumn]
    omega
  · intro c hc
    simp only [addColumn] at hc ⊢
    rcases List.mem_append.mp hc with hc | hc
    · rw [hcol_mem c hc]; omega
    · have := hb2 c hc; omega
  · simp only [addColumn]
    rw [List.map_append]
    refine List.Nodup.append (colOf_coords_nodup _ _ _ (colZs_nodup cfg)) hnd ?_
    intro q hq1 hq2
    rw [List.mem_map] at hq1 hq2
    obtain ⟨c1, hc1, rfl⟩ := hq1
    obtain ⟨c2, hc2, heq⟩ := hq2
    have hx1 : c1.x = st.length + cfg.offx := hcol_mem c1 hc1
    have hx2 : c2.x < cfg.offx + st.length := hb2 c2 hc2
    have hxeq : c2.x = c1.x := congrArg Prod.fst heq
    omega
  · intro c1 hc1 c2 hc2
    simp only [addColumn] at hc1 hc2
    rcases List.mem_append.mp hc2 with hc2 | hc2
    · have hx1 := hb1 c1 hc1
      have hx2 : c2.x = st.length + cfg.offx := hcol_mem c2 hc2
      intro heq
      have : c1.x = c2.x := congrArg Prod.fst heq
      omega
    · exact hdisj c1 hc1 c2 hc2

theorem sampleStep_accept (cfg : SamplerCfg) (st : SamplerState) (c : Chunk)
    (hm : heapMax st.pending = some c)
    (hle : c.hash ≤ minHashOf cfg + st.accepted.card) :
    sampleStep cfg st = ⟨insert c st.accepted, st.pending.erase c, st.length⟩ := by
  unfold sampleStep
  rw [hm]
  simp [hle]

theorem sampleStep_col_none (cfg : SamplerCfg) (st : SamplerState)
    (hm : heapMax st.pending = none) : sampleStep cfg st = addColumn cfg st := by
  unfold sampleStep
  rw [hm]

theorem sampleStep_col_high (cfg : SamplerCfg) (st : SamplerState) (c : Chunk)
    (hm : heapMax st.pending = some c)
    (hle : ¬c.hash ≤ minHashOf cfg + st.accepted.card) :
    sampleStep cfg st = addColumn cfg st := by
  unfold sampleStep
  rw [hm]
  simp [hle]

theorem sampInv_step (cfg : SamplerCfg) (st : SamplerState) (h : SampInv cfg st) :
    SampInv cfg (sampleStep cfg st) := by
  cases hm : heapMax st.pending with
  | none => rw [sampleStep_col_none cfg st hm]; exact addColumn_inv cfg st h
  | some c =>
    by_cases hle : c.hash ≤ minHashOf cfg + st.accepted.card
    · rw [sampleStep_accept cfg st c hm hle]
      obtain ⟨hb1, hb2, hnd, hinj, hdisj⟩ := h
      have hcmem : c ∈ st.pending := heapMax_mem _ c hm
      have hpnd : st.pending.Nodup := List.Nodup.of_map _ hnd
      refine ⟨?_, ?_, ?_, ?_, ?_⟩
      · intro d hd
        simp only at hd ⊢
        rcases Finset.mem_insert.mp hd with rfl | hd
        · exact hb2 d hcmem
        · exact hb1 d hd
      · intro d hd
        exact hb2 d (List.mem_of_mem_erase hd)
      · exact List.Nodup.sublist (List.Sublist.map _ (List.erase_sublist c st.pending)) hnd
      · intro d1 hd1 d2 hd2 heq
        simp only at hd1 hd2
        rcases Finset.mem_insert.mp hd1 with hd1e | hd1m
        · rcases Finset.mem_insert.mp hd2 with hd2e | hd2m
          · rw [hd1e, hd2e]
          · rw [hd1e] at heq ⊢
            exact absurd heq.symm (hdisj d2 hd2m c hcmem)
        · rcases Finset.mem_insert.mp hd2 with hd2e | hd2m
          · rw [hd2e] at heq ⊢
            exact absurd heq (hdisj d1 hd1m c hcmem)
          · exact hinj d1 hd1m d2 hd2m heq
      · intro d1 hd1 d2 hd2
        simp only at hd1 hd2
        have hd2both := (List.Nodup.mem_erase_iff hpnd).mp hd2
        rcases Finset.mem_insert.mp hd1 with hd1e | hd1m
        · intro heq
          rw [hd1e] at heq
          exact hd2both.1 (List.inj_on_of_nodup_map hnd hd2both.2 hcmem heq.symm)
        · exact hdisj d1 hd1m d2 hd2both.2
    · rw [sampleStep_col_high cfg st c hm hle]
      exact addColumn_inv cfg st h

theorem sampleStep_card (cfg : SamplerCfg) (st : SamplerState) :
    (sampleStep cfg st).accepted.card ≤ st.accepted.card + 1 := by
  cases hm : heapMax st.pending with
  | none => rw [sampleStep_col_none cfg st hm]; simp [addColumn]
  | some c =>
    by_cases hle : c.hash ≤ minHashOf cfg + st.accepted.card
    · rw [sampleStep_accept cfg st c hm hle]
      simpa using Finset.card_insert_le c st.accepted
    · rw [sampleStep_col_high cfg st c hm hle]
      simp [addColumn]

theorem sampleRun_out (cfg : SamplerCfg) :
    ∀ (fuel : ℕ) (st : SamplerState) (S : Finset Chunk), SampInv cfg st →
      st.accepted.card ≤ cfg.clusterSize → sampleRun cfg fuel st = some S →
      S.card = cfg.clusterSize ∧
        ∀ c₁ ∈ S, ∀ c₂ ∈ S, chunkCoords c₁ = chunkCoords c₂ → c₁ = c₂ := by
  intro fuel
  induction fuel with
  | zero => intro st S _ _ h; simp [sampleRun] at h
  | succ f ih =>
    intro st S hinv hle h
    rw [sampleRun] at h
    by_cases hlt : st.accepted.card < cfg.clusterSize
    · rw [if_pos hlt] at h
      exact ih _ S (sampInv_step cfg st hinv)
        (le_trans (sampleStep_card cfg st) (by omega)) h
    · rw [if_neg hlt] at h
      simp only [Option.some.injEq] at h
      subst h
      exact ⟨by omega, fun c₁ h₁ c₂ h₂ => hinv.2.2.2.1 c₁ h₁ c₂ h₂⟩

/-- C1: whenever the scan loop terminates (for any configuration and
any fuel), the accepted set holds exactly `cluster_size` cells with
pairwise-distinct coordinates: its cardinality is `cluster_size` and so
is the cardinality of its coordinate image. -/
theorem c1_sampler_exact (cfg : SamplerCfg) (fuel : ℕ) (S : Finset Chunk)
    (h : sampleRun cfg fuel initSampler = some S) : SamplerOutputOK cfg S := by
  have hinv : SampInv cfg initSampler := by
    refine ⟨?_, ?_, ?_, ?_, ?_⟩ <;> simp [initSampler]
  obtain ⟨hcard, hinj⟩ :=
    sampleRun_out cfg fuel initSampler S hinv (by simp [initSampler]) h
  refine ⟨hcard, ?_⟩
  rw [Finset.card_image_of_injOn, hcard]
  intro c₁ h₁ c₂ h₂ heq
  exact hinj c₁ (Finset.mem_coe.mp h₁) c₂ (Finset.mem_coe.mp h₂) heq

/-- Witness for `c1_sampler_exact`: under `tinyCfg` the scan terminates
after three iterations with exactly the single cell `tinyChunk`. -/
theorem c1_sampler_witness : SamplerOutputOK tinyCfg {tinyChunk} :=
  c1_sampler_exact tinyCfg 3 {tinyChunk} (by decide)

/-! ## C3 — walks, simple paths, and the exchange argument -/

theorem stepRel_symm (E : Finset (Sym2 Chunk)) : Symmetric (stepRel E) := by
  intro a b h
  unfold stepRel at h ⊢
  rwa [Sym2.eq_swap]

theorem reach_symm (E : Finset (Sym2 Chunk)) : Symmetric (reach E) :=
  Relation.ReflTransGen.symmetric (stepRel_symm E)

theorem reach_mono {E E' : Finset (Sym2 Chunk)} (h : E ⊆ E') {a b : Chunk}
    (hr : reach E a b) : reach E' a b :=
  Relation.ReflTransGen.mono (fun _ _ hxy => h hxy) hr

theorem endOf_cons (u w : Chunk) (m : List Chunk) : endOf u (w :: m) = endOf w m := rfl

theorem endOf_append_mid : ∀ (l₁ : List Chunk) (s u : Chunk) (l₂ : List Chunk),
    endOf s (l₁ ++ u :: l₂) = endOf u l₂ := by
  intro l₁
  induction l₁ with
  | nil => intro s u l₂; rfl
  | cons a l ih =>
    intro s u l₂
    rw [List.cons_append, endOf_cons]
    exact ih a u l₂

theorem endOf_snoc : ∀ (l : List Chunk) (u c : Chunk), endOf u (l ++ [c]) = c := by
  intro l
  induction l with
  | nil => intro u c; rfl
  | cons w m ih =>
    intro u c
    rw [List.cons_append, endOf_cons]
    exact ih w c

theorem reach_of_chain (E : Finset (Sym2 Chunk)) :
    ∀ (l : List Chunk) (u : Chunk), List.Chain (stepRel E) u l →
      reach E u (endOf u l) := by
  intro l
  induction l with
  | nil => intro u _; exact Relation.ReflTransGen.refl
  | cons w m ih =>
    intro u hc
    rw [List.chain_cons] at hc
    rw [endOf_cons]
    exact Relation.ReflTransGen.head hc.1 (ih w hc.2)

theorem chain_snoc (E : Finset (Sym2 Chunk)) :
    ∀ (l : List Chunk) (u c : Chunk), List.Chain (stepRel E) u l →
      stepRel E (endOf u l) c → List.Chain (stepRel E) u (l ++ [c]) := by
  intro l
  induction l with
  | nil => intro u c _ hs; exact List.Chain.cons hs List.Chain.nil
  | cons w m ih =>
    intro u c hc hs
    rw [List.chain_cons] at hc
    rw [List.cons_append, List.chain_cons]
    exact ⟨hc.1, ih w c hc.2 hs⟩

theorem chain_of_reach (E : Finset (Sym2 Chunk)) (u v : Chunk) (h : reach E u v) :
    ∃ l, List.Chain (stepRel E) u l ∧ endOf u l = v := by
  induction h with
  | refl => exact ⟨[], List.Chain.nil, rfl⟩
  | tail _ hs ih =>
    obtain ⟨l, hcl, hend⟩ := ih
    exact ⟨l ++ [_], chain_snoc E l u _ hcl (hend ▸ hs), endOf_snoc l u _⟩

theorem chain_dedup (E : Finset (Sym2 Chunk)) :
    ∀ (n : ℕ) (l : List Chunk) (u : Chunk), l.length ≤ n →
      List.Chain (stepRel E) u l →
      ∃ l', List.Chain (stepRel E) u l' ∧ endOf u l' = endOf u l ∧
        (u :: l').Nodup ∧ ∀ x ∈ l', x ∈ l := by
  intro n
  induction n with
  | zero =>
    intro l u hlen _
    rw [Nat.le_zero, List.length_eq_zero] at hlen
    subst hlen
    exact ⟨[], List.Chain.nil, rfl, by simp, by simp⟩
  | succ n ih =>
    intro l u hlen hc
    by_cases hu : u ∈ l
    · obtain ⟨l₁, l₂, rfl⟩ := List.append_of_mem hu
      have hc₂ : List.Chain (stepRel E) u l₂ := (List.chain_split.mp hc).2
      have hlen₂ : l₂.length ≤ n := by
        rw [List.length_append, List.length_cons] at hlen
        omega
      obtain ⟨l', hcl', hend', hnd', hsub'⟩ := ih l₂ u hlen₂ hc₂
      refine ⟨l', hcl', ?_, hnd', fun x hx => ?_⟩
      · rw [hend', endOf_append_mid]
      · exact List.mem_append.mpr (Or.inr (List.mem_cons_of_mem _ (hsub' x hx)))
    · cases l with
      | nil => exact ⟨[], List.Chain.nil, rfl, by simp, by simp⟩
      | cons w m =>
        rw [List.chain_cons] at hc
        have hlenm : m.length ≤ n := by
          rw [List.length_cons] at hlen
          omega
        obtain ⟨m', hcm', hendm', hndm', hsubm'⟩ := ih m w hlenm hc.2
        refine ⟨w :: m', List.chain_cons.mpr ⟨hc.1, hcm'⟩, ?_, ?_, ?_⟩
        · rw [endOf_cons, endOf_cons, hendm']
        · rw [List.nodup_cons]
          refine ⟨?_, hndm'⟩
          intro humem
          rcases List.mem_cons.mp humem with heq | humem'
          · exact hu (heq ▸ List.mem_cons_self _ _)
          · exact hu (List.mem_cons_of_mem _ (hsubm' u humem'))
        · intro x hx
          rcases List.mem_cons.mp hx with heq | hx'
          · exact heq ▸ List.mem_cons_self _ _
          · exact List.mem_cons_of_mem _ (hsubm' x hx')

theorem chain_erase (E : Finset (Sym2 Chunk)) (f : Sym2 Chunk) (u : Chunk)
    (hu : u ∈ f) :
    ∀ (m : List Chunk) (c : Chunk), List.Chain (stepRel E) c m → u ∉ c :: m →
      List.Chain (stepRel (E.erase f)) c m := by
  intro m
  induction m with
  | nil => intro c _ _; exact List.Chain.nil
  | cons d m' ih =>
    intro c hc hnu
    rw [List.chain_cons] at hc
    simp only [List.mem_cons, not_or] at hnu
    rw [List.chain_cons]
    refine ⟨?_, ih d hc.2 (by simp only [List.mem_cons, not_or]; exact hnu.2)⟩
    refine Finset.mem_erase.mpr ⟨?_, hc.1⟩
    intro hEq
    rw [← hEq] at hu
    rcases Sym2.mem_iff.mp hu with rfl | rfl
    · exact hnu.1 rfl
    · exact hnu.2.1 rfl

theorem crossing_of_chain (E : Finset (Sym2 Chunk)) (S : Finset Chunk) :
    ∀ (l : List Chunk) (u : Chunk), List.Chain (stepRel E) u l → (u :: l).Nodup →
      u ∈ S → endOf u l ∉ S →
      ∃ a b, s(a, b) ∈ E ∧ a ∈ S ∧ b ∉ S ∧ a ∈ u :: l ∧ b ∈ u :: l ∧
        reach (E.erase s(a, b)) u a ∧ reach (E.erase s(a, b)) b (endOf u l) := by
  intro l
  induction l with
  | nil => intro u _ _ huS hvS; exact absurd huS hvS
  | cons w m ih =>
    intro u hc hnd huS hvS
    rw [List.chain_cons] at hc
    rw [List.nodup_cons] at hnd
    by_cases hwS : w ∈ S
    · obtain ⟨a, b, hab, haS, hbS, haM, hbM, hra, hrb⟩ :=
        ih w hc.2 hnd.2 hwS (by rwa [endOf_cons] at hvS)
    -- extend the walk-prefix reach from w back to u through the edge (u, w)
      have hstep : stepRel (E.erase s(a, b)) u w := by
        refine Finset.mem_erase.mpr ⟨?_, hc.1⟩
        intro hEq
        have humem : u ∈ s(a, b) := by
          rw [← hEq]
          exact Sym2.mem_mk_left u w
        rcases Sym2.mem_iff.mp humem with rfl | rfl
        · exact hnd.1 haM
        · exact hnd.1 hbM
      exact ⟨a, b, hab, haS, hbS, List.mem_cons_of_mem _ haM,
        List.mem_cons_of_mem _ hbM, Relation.ReflTransGen.head hstep hra,
        by rwa [endOf_cons]⟩
    · refine ⟨u, w, hc.1, huS, hwS, List.mem_cons_self _ _,
        List.mem_cons_of_mem _ (List.mem_cons_self _ _),
        Relation.ReflTransGen.refl, ?_⟩
      rw [endOf_cons]
      exact reach_of_chain _ m w
        (chain_erase E s(u, w) u (Sym2.mem_mk_left u w) m w hc.2 hnd.1)

theorem reach_transfer (E : Finset (Sym2 Chunk)) (f : Sym2 Chunk)
    (E' : Finset (Sym2 Chunk)) (hsub : E.erase f ⊆ E') (a b : Chunk)
    (hf : f = s(a, b)) (hab : reach E' a b) :
    ∀ x y, reach E x y → reach E' x y := by
  intro x y hxy
  induction hxy with
  | refl => exact Relation.ReflTransGen.refl
  | @tail p q _ hs ih =>
    refine Relation.ReflTransGen.trans ih ?_
    by_cases heq : s(p, q) = f
    · rw [hf] at heq
      rcases Sym2.eq_iff.mp heq with ⟨rfl, rfl⟩ | ⟨rfl, rfl⟩
      · exact hab
      · exact reach_symm E' hab
    · exact Relation.ReflTransGen.single (hsub (Finset.mem_erase.mpr ⟨heq, hs⟩))

theorem exchange (V : Finset Chunk) (T : Finset (Sym2 Chunk)) (S : Finset Chunk)
    (hconn : connectedOn V T) (u v : Chunk) (hu : u ∈ V) (hv : v ∈ V)
    (huS : u ∈ S) (hvS : v ∉ S) :
    ∃ a b, s(a, b) ∈ T ∧ a ∈ S ∧ b ∉ S ∧
      connectedOn V (insert s(u, v) (T.erase s(a, b))) := by
  obtain ⟨l, hcl, hend⟩ := chain_of_reach T u v (hconn u hu v hv)
  obtain ⟨l', hcl', hend', hnd', _⟩ := chain_dedup T l.length l u (le_refl _) hcl
  rw [hend] at hend'
  obtain ⟨a, b, hab, haS, hbS, _, _, hra, hrb⟩ :=
    crossing_of_chain T S l' u hcl' hnd' huS (by rw [hend']; exact hvS)
  rw [hend'] at hrb
  refine ⟨a, b, hab, haS, hbS, ?_⟩
  have hsub : T.erase s(a, b) ⊆ insert s(u, v) (T.erase s(a, b)) :=
    Finset.subset_insert _ _
  have hstep_uv : stepRel (insert s(u, v) (T.erase s(a, b))) u v :=
    Finset.mem_insert_self _ _
  have hreach_ab : reach (insert s(u, v) (T.erase s(a, b))) a b :=
    Relation.ReflTransGen.trans (reach_symm _ (reach_mono hsub hra))
      (Relation.ReflTransGen.trans (Relation.ReflTransGen.single hstep_uv)
        (reach_symm _ (reach_mono hsub hrb)))
  intro x hx y hy
  exact reach_transfer T s(a, b) _ hsub a b rfl hreach_ab x y (hconn x hx y hy)

/-! ## C3 — properties of the greedy pair selection -/

theorem distC_comm (a b : Chunk) : distC a b = distC b a := by
  unfold distC mdist
  simp only
  rw [abs_sub_comm, abs_sub_comm a.z]

theorem edgeW_mk (x y : Chunk) : edgeW s(x, y) = distC x y := by
  unfold edgeW
  rw [Sym2.lift_mk]

theorem chunkAt_mem (ns : List Chunk) (i : ℕ) (h : i < ns.length) :
    chunkAt ns i ∈ ns := by
  unfold chunkAt
  rw [List.getD_eq_getElem ns default h]
  exact List.getElem_mem h

theorem chunkAt_of_mem (ns : List Chunk) (p : Chunk) (h : p ∈ ns) :
    ∃ j, j < ns.length ∧ chunkAt ns j = p := by
  obtain ⟨j, hj, hget⟩ := List.mem_iff_getElem.mp h
  refine ⟨j, hj, ?_⟩
  unfold chunkAt
  rw [List.getD_eq_getElem ns default hj]
  exact hget

theorem chunkAt_append (ns l : List Chunk) (i : ℕ) (h : i < ns.length) :
    chunkAt (ns ++ l) i = chunkAt ns i := by
  unfold chunkAt
  exact List.getD_append ns l default i h

theorem chunkAt_append_self (ns : List Chunk) (c : Chunk) :
    chunkAt (ns ++ [c]) ns.length = c := by
  unfold chunkAt
  induction ns with
  | nil => rfl
  | cons a l ih => exact ih

theorem innerPick_some (rem ns : List Chunk) (j i : ℕ) (c : Chunk) (d : ℤ)
    (h : innerPick rem ns j = some (i, c, d)) :
    i = j ∧ c ∈ rem ∧ d = distC c (chunkAt ns j) ∧
      ∀ c' ∈ rem, d ≤ distC c' (chunkAt ns j) := by
  unfold innerPick at h
  cases ha : rem.argmin (fun x => distC x (chunkAt ns j)) with
  | none => rw [ha] at h; simp at h
  | some c0 =>
    rw [ha] at h
    simp only [Option.map_some', Option.some.injEq, Prod.mk.injEq] at h
    obtain ⟨hji, hc0, hd0⟩ := h
    subst hji
    subst hc0
    subst hd0
    have haM : c0 ∈ rem.argmin (fun x => distC x (chunkAt ns j)) := by
      rw [Option.mem_def]
      exact ha
    exact ⟨rfl, List.argmin_mem haM, rfl,
      fun c' hc' => List.le_of_mem_argmin hc' haM⟩

theorem pickPair_spec (ns rem : List Chunk) (i : ℕ) (c : Chunk) (d : ℤ)
    (h : pickPair ns rem = some (i, c, d)) :
    i < ns.length ∧ c ∈ rem ∧ d = distC c (chunkAt ns i) ∧
      ∀ j, j < ns.length → ∀ c' ∈ rem, d ≤ distC c' (chunkAt ns j) := by
  unfold pickPair at h
  have hmem := List.argmin_mem (by rw [Option.mem_def]; exact h)
  rw [List.mem_filterMap] at hmem
  obtain ⟨j, hj, hinner⟩ := hmem
  rw [List.mem_range] at hj
  obtain ⟨hij, hcrem, hd, _⟩ := innerPick_some rem ns j i c d hinner
  subst hij
  refine ⟨hj, hcrem, hd, ?_⟩
  intro j' hj' c' hc'
  cases ha' : rem.argmin (fun x => distC x (chunkAt ns j')) with
  | none =>
    rw [List.argmin_eq_none] at ha'
    rw [ha'] at hc'
    simp at hc'
  | some c0 =>
    have hmem' : (j', c0, distC c0 (chunkAt ns j')) ∈
        (List.range ns.length).filterMap (innerPick rem ns) := by
      rw [List.mem_filterMap]
      refine ⟨j', by rw [List.mem_range]; exact hj', ?_⟩
      unfold innerPick
      rw [ha']
      rfl
    have hM : (i, c, d) ∈ ((List.range ns.length).filterMap (innerPick rem ns)).argmin
        (fun t => t.2.2) := by
      rw [Option.mem_def]
      exact h
    have haM2 : c0 ∈ rem.argmin (fun x => distC x (chunkAt ns j')) := by
      rw [Option.mem_def]
      exact ha'
    have houter : d ≤ distC c0 (chunkAt ns j') :=
      List.le_of_mem_argmin hmem' hM
    have hinner2 : distC c0 (chunkAt ns j') ≤ distC c' (chunkAt ns j') :=
      List.le_of_mem_argmin hc' haM2
    exact le_trans houter hinner2

theorem pickPair_isSome (ns rem : List Chunk) (hns : ns ≠ []) (hrem : rem ≠ []) :
    ∃ icd, pickPair ns rem = some icd := by
  unfold pickPair
  cases hrem' : rem.argmin (fun x => distC x (chunkAt ns 0)) with
  | none => rw [List.argmin_eq_none] at hrem'; exact absurd hrem' hrem
  | some c0 =>
    have h0 : (0, c0, distC c0 (chunkAt ns 0)) ∈
        (List.range ns.length).filterMap (innerPick rem ns) := by
      rw [List.mem_filterMap]
      refine ⟨0, by rw [List.mem_range]; exact List.length_pos.mpr hns, ?_⟩
      unfold innerPick
      rw [hrem']
      rfl
    cases hp : ((List.range ns.length).filterMap (innerPick rem ns)).argmin
        (fun t => t.2.2) with
    | none =>
      rw [List.argmin_eq_none] at hp
      rw [hp] at h0
      simp at h0
    | some t => exact ⟨t, rfl⟩

theorem treeES_mem (ns : List Chunk) (es : List (ℕ × ℕ × ℤ)) (e : Sym2 Chunk) :
    e ∈ treeES ns es ↔ ∃ t ∈ es, edgeSym ns t = e := by
  unfold treeES
  rw [List.mem_toFinset, List.mem_map]

theorem treeES_append (ns : List Chunk) (es : List (ℕ × ℕ × ℤ)) (c : Chunk)
    (t : ℕ × ℕ × ℤ)
    (hes : ∀ t' ∈ es, t'.1 < ns.length ∧ t'.2.1 < ns.length) :
    treeES (ns ++ [c]) (es ++ [t]) =
      insert (edgeSym (ns ++ [c]) t) (treeES ns es) := by
  unfold treeES
  rw [List.map_append]
  have hmap : es.map (edgeSym (ns ++ [c])) = es.map (edgeSym ns) := by
    apply List.map_congr_left
    intro t' ht'
    unfold edgeSym
    rw [chunkAt_append ns [c] _ (hes t' ht').1, chunkAt_append ns [c] _ (hes t' ht').2]
  rw [hmap]
  ext e
  simp [or_comm]

/-! ## C3 — the loop invariant of the tree builder -/

theorem primInv_init (c : Chunk) (rest : List Chunk) :
    PrimInv (c :: rest) [c] [] rest := by
  refine ⟨by simp, by simp, by simp, by simp, by simp, by simp, ?_, ?_, by simp [treeES], ?_⟩
  · intro e he
    simp [treeES] at he
  · intro x hx y hy
    simp at hx hy
    subst hx
    subst hy
    exact Relation.ReflTransGen.refl
  · intro T hT
    exact ⟨T, hT, by simp [treeES], le_refl _⟩

theorem primInv_step (cs ns : List Chunk) (es : List (ℕ × ℕ × ℤ)) (rem : List Chunk)
    (hcs : cs.Nodup) (hinv : PrimInv cs ns es rem) (i : ℕ) (c : Chunk) (d : ℤ)
    (hpick : pickPair ns rem = some (i, c, d)) :
    PrimInv cs (ns ++ [c]) (es ++ [(i, ns.length, d)]) (rem.erase c) := by
  obtain ⟨hilt, hcrem, hd, hmin⟩ := pickPair_spec ns rem i c d hpick
  have hndall : (ns ++ rem).Nodup := hinv.perm.nodup_iff.mpr hcs
  obtain ⟨hnsnd, hremnd, hdisj⟩ := List.nodup_append.mp hndall
  have hcns : c ∉ ns := fun hc => hdisj hc hcrem
  have hedge_new : edgeSym (ns ++ [c]) (i, ns.length, d) = s(chunkAt ns i, c) := by
    unfold edgeSym
    simp only
    rw [chunkAt_append ns [c] i hilt, chunkAt_append_self]
  have hES : treeES (ns ++ [c]) (es ++ [(i, ns.length, d)]) =
      insert s(chunkAt ns i, c) (treeES ns es) := by
    rw [treeES_append ns es c _ hinv.edges_lt, hedge_new]
  have hTF : (ns ++ [c]).toFinset = insert c ns.toFinset := by
    ext x
    simp [or_comm]
  refine ⟨?_, ?_, ?_, ?_, ?_, ?_, ?_, ?_, ?_, ?_⟩
  · simp
  · have h1 : ((ns ++ [c]) ++ rem.erase c).Perm (ns ++ rem) := by
      rw [List.append_assoc]
      exact List.Perm.append_left ns (List.perm_cons_erase hcrem).symm
    exact h1.trans hinv.perm
  · intro t ht
    rw [List.length_append, List.length_singleton]
    rcases List.mem_append.mp ht with ht | ht
    · have := hinv.edges_lt t ht
      omega
    · rw [List.mem_singleton] at ht
      subst ht
      exact ⟨by show i < ns.length + 1; omega, by show ns.length < ns.length + 1; omega⟩
  · intro t ht
    rcases List.mem_append.mp ht with ht | ht
    · have hb := hinv.edges_lt t ht
      rw [chunkAt_append ns [c] _ hb.1, chunkAt_append ns [c] _ hb.2]
      exact hinv.edges_w t ht
    · rw [List.mem_singleton] at ht
      subst ht
      show d = distC (chunkAt (ns ++ [c]) ns.length) (chunkAt (ns ++ [c]) i)
      rw [chunkAt_append_self, chunkAt_append ns [c] i hilt]
      exact hd
  · intro t ht
    rcases List.mem_append.mp ht with ht | ht
    · have hb := hinv.edges_lt t ht
      rw [chunkAt_append ns [c] _ hb.1, chunkAt_append ns [c] _ hb.2]
      exact hinv.edges_ne t ht
    · rw [List.mem_singleton] at ht
      subst ht
      show chunkAt (ns ++ [c]) i ≠ chunkAt (ns ++ [c]) ns.length
      rw [chunkAt_append_self, chunkAt_append ns [c] i hilt]
      exact fun h => hcns (h ▸ chunkAt_mem ns i hilt)
  · rw [List.length_append, List.length_append, List.length_singleton,
      List.length_singleton]
    have := hinv.len
    have := List.length_pos.mpr hinv.ne
    omega
  · rw [hES, hTF]
    intro e he x hx
    rcases Finset.mem_insert.mp he with rfl | he
    · rcases Sym2.mem_iff.mp hx with rfl | rfl
      · exact Finset.mem_insert_of_mem (List.mem_toFinset.mpr (chunkAt_mem ns i hilt))
      · exact Finset.mem_insert_self _ _
    · exact Finset.mem_insert_of_mem (hinv.within e he x hx)
  · rw [hES, hTF]
    have hsub : treeES ns es ⊆ insert s(chunkAt ns i, c) (treeES ns es) :=
      Finset.subset_insert _ _
    have hstep_ca : stepRel (insert s(chunkAt ns i, c) (treeES ns es)) c (chunkAt ns i) := by
      unfold stepRel
      rw [Sym2.eq_swap]
      exact Finset.mem_insert_self _ _
    have hmemA : chunkAt ns i ∈ ns.toFinset := List.mem_toFinset.mpr (chunkAt_mem ns i hilt)
    intro x hx y hy
    rcases Finset.mem_insert.mp hx with hxc | hx
    · rcases Finset.mem_insert.mp hy with hyc | hy
      · rw [hxc, hyc]
        exact Relation.ReflTransGen.refl
      · rw [hxc]
        exact Relation.ReflTransGen.head hstep_ca (reach_mono hsub (hinv.conn _ hmemA y hy))
    · rcases Finset.mem_insert.mp hy with hyc | hy
      · rw [hyc]
        exact reach_symm _
          (Relation.ReflTransGen.head hstep_ca (reach_mono hsub (hinv.conn _ hmemA x hx)))
      · exact reach_mono hsub (hinv.conn x hx y hy)
  · rw [hES]
    have hnotmem : s(chunkAt ns i, c) ∉ treeES ns es := by
      intro hmem
      have := hinv.within _ hmem c (Sym2.mem_mk_right _ _)
      rw [List.mem_toFinset] at this
      exact hcns this
    rw [Finset.card_insert_of_not_mem hnotmem, hinv.card_es, List.length_append,
      List.length_singleton]
  · intro T hT
    obtain ⟨Tb, hTb, hsubEs, hwTb⟩ := hinv.mst T hT
    have hcinCs : c ∈ cs := (hinv.perm.mem_iff).mp (List.mem_append.mpr (Or.inr hcrem))
    have hainCs : chunkAt ns i ∈ cs :=
      (hinv.perm.mem_iff).mp (List.mem_append.mpr (Or.inl (chunkAt_mem ns i hilt)))
    by_cases he : s(chunkAt ns i, c) ∈ Tb
    · refine ⟨Tb, hTb, ?_, hwTb⟩
      rw [hES]
      exact Finset.insert_subset he hsubEs
    · obtain ⟨hwithin, hnodiag, hconn, hcard⟩ := hTb
      obtain ⟨p, q, hpq, hpS, hqS, hconn'⟩ :=
        exchange cs.toFinset Tb ns.toFinset hconn (chunkAt ns i) c
          (List.mem_toFinset.mpr hainCs) (List.mem_toFinset.mpr hcinCs)
          (List.mem_toFinset.mpr (chunkAt_mem ns i hilt))
          (by rw [List.mem_toFinset]; exact hcns)
      have hq_cs : q ∈ cs := by
        have := hwithin _ hpq q (Sym2.mem_mk_right p q)
        rwa [List.mem_toFinset] at this
      have hq_rem : q ∈ rem := by
        have hq2 : q ∈ ns ++ rem := (hinv.perm.mem_iff).mpr hq_cs
        rcases List.mem_append.mp hq2 with hq | hq
        · exact absurd (List.mem_toFinset.mpr hq) hqS
        · exact hq
      have hp_ns : p ∈ ns := List.mem_toFinset.mp hpS
      obtain ⟨jp, hjp, hjp_eq⟩ := chunkAt_of_mem ns p hp_ns
      have hwle : edgeW s(chunkAt ns i, c) ≤ edgeW s(p, q) := by
        rw [edgeW_mk, edgeW_mk]
        have h1 : d ≤ distC q (chunkAt ns jp) := hmin jp hjp q hq_rem
        rw [hjp_eq] at h1
        calc distC (chunkAt ns i) c = d := by rw [hd, distC_comm]
          _ ≤ distC q p := h1
          _ = distC p q := distC_comm q p
      have heTb' : s(chunkAt ns i, c) ∉ Tb.erase s(p, q) :=
        fun hmem => he (Finset.mem_of_mem_erase hmem)
      refine ⟨insert s(chunkAt ns i, c) (Tb.erase s(p, q)), ⟨?_, ?_, hconn', ?_⟩, ?_, ?_⟩
      · intro e he' x hx
        rcases Finset.mem_insert.mp he' with rfl | he'
        · rcases Sym2.mem_iff.mp hx with rfl | rfl
          · exact List.mem_toFinset.mpr hainCs
          · exact List.mem_toFinset.mpr hcinCs
        · exact hwithin e (Finset.mem_of_mem_erase he') x hx
      · intro e he'
        rcases Finset.mem_insert.mp he' with rfl | he'
        · rw [Sym2.mk_isDiag_iff]
          exact fun h => hcns (h ▸ chunkAt_mem ns i hilt)
        · exact hnodiag e (Finset.mem_of_mem_erase he')
      · rw [Finset.card_insert_of_not_mem heTb', Finset.card_erase_of_mem hpq]
        have hpos : 0 < Tb.card := Finset.card_pos.mpr ⟨_, hpq⟩
        omega
      · rw [hES]
        refine Finset.insert_subset (Finset.mem_insert_self _ _) ?_
        intro e he'
        have hf_not : e ≠ s(p, q) := by
          intro hEq
          have hq_ns := hinv.within e he' q (by rw [hEq]; exact Sym2.mem_mk_right p q)
          exact hqS hq_ns
        exact Finset.subset_insert _ _ (Finset.mem_erase.mpr ⟨hf_not, hsubEs he'⟩)
      · refine le_trans ?_ hwTb
        unfold treeWeight
        rw [Finset.sum_insert heTb']
        have hsum := Finset.sum_erase_add Tb edgeW hpq
        linarith

theorem primLoop_inv (cs : List Chunk) (hcs : cs.Nodup) :
    ∀ (fuel : ℕ) (rem ns : List Chunk) (es : List (ℕ × ℕ × ℤ)),
      PrimInv cs ns es rem → rem.length ≤ fuel →
      PrimInv cs (primLoop fuel ns es rem).1 (primLoop fuel ns es rem).2 [] := by
  intro fuel
  induction fuel with
  | zero =>
    intro rem ns es hinv hlen
    rw [Nat.le_zero, List.length_eq_zero] at hlen
    subst hlen
    exact hinv
  | succ f ih =>
    intro rem ns es hinv hlen
    by_cases hrem : rem.isEmpty
    · have hrem' : rem = [] := by rwa [List.isEmpty_iff] at hrem
      rw [primLoop, if_pos hrem]
      subst hrem'
      exact hinv
    · have hremne : rem ≠ [] := fun h => hrem (by rw [h]; rfl)
      obtain ⟨⟨i, c, d⟩, hpick⟩ := pickPair_isSome ns rem hinv.ne hremne
      have hstep := primInv_step cs ns es rem hcs hinv i c d hpick
      have hlen' : (rem.erase c).length ≤ f := by
        have hcrem := (pickPair_spec ns rem i c d hpick).2.1
        have := List.length_erase_of_mem hcrem
        have := List.length_pos.mpr hremne
        omega
      have hrw : primLoop (f + 1) ns es rem =
          primLoop f (ns ++ [c]) (es ++ [(i, ns.length, d)]) (rem.erase c) := by
        rw [primLoop, if_neg hrem, hpick]
      rw [hrw]
      exact ih (rem.erase c) _ _ hstep hlen'

/-- C3: for every nonempty duplicate-free list of sampled cells, the
tree builder records exactly `K - 1` edges, each referencing two valid
distinct nodes and weighted by the Manhattan distance between its
endpoints; the resulting undirected edge set is a connected spanning
tree of the complete Manhattan-distance graph on the cells, and its
total weight is minimal among all spanning trees of that graph (hence
equal to any reference MST algorithm's total weight). -/
theorem c3_tree_builder (cs : List Chunk) (hnd : cs.Nodup) (hne : cs ≠ []) :
    TreeBuilderOK cs := by
  obtain ⟨c, rest, rfl⟩ := List.exists_cons_of_ne_nil hne
  have hfin := primLoop_inv (c :: rest) hnd rest.length rest [c] []
    (primInv_init c rest) (le_refl _)
  have hbt : buildTree (c :: rest) = primLoop rest.length [c] [] rest := rfl
  unfold TreeBuilderOK
  rw [hbt]
  set ns := (primLoop rest.length [c] [] rest).1 with hns
  set es := (primLoop rest.length [c] [] rest).2 with hes
  have hperm : ns.Perm (c :: rest) := by
    have := hfin.perm
    simpa using this
  have hlen_ns : ns.length = (c :: rest).length := hperm.length_eq
  have hTFeq : ns.toFinset = (c :: rest).toFinset := List.toFinset_eq_of_perm _ _ hperm
  have hcard_cs : (c :: rest).toFinset.card = (c :: rest).length :=
    List.toFinset_card_of_nodup hnd
  refine ⟨?_, ?_, ?_, ?_, ?_⟩
  · rw [hfin.len, hlen_ns]
  · intro t ht
    exact ⟨(hfin.edges_lt t ht).1, (hfin.edges_lt t ht).2, hfin.edges_w t ht⟩
  · rw [← hTFeq]
    exact hfin.conn
  · refine ⟨?_, ?_, ?_, ?_⟩
    · rw [← hTFeq]
      exact hfin.within
    · intro e he
      rw [treeES_mem] at he
      obtain ⟨t, ht, rfl⟩ := he
      unfold edgeSym
      rw [Sym2.mk_isDiag_iff]
      exact hfin.edges_ne t ht
    · rw [← hTFeq]
      exact hfin.conn
    · rw [hfin.card_es, hfin.len, hcard_cs, hlen_ns]
  · intro T hT
    obtain ⟨Tb, hTb, hsub, hw⟩ := hfin.mst T hT
    have hcards : Tb.card ≤ (treeES ns es).card := by
      rw [hfin.card_es, hfin.len, hTb.2.2.2, hcard_cs, hlen_ns]
    have heq : treeES ns es = Tb := Finset.eq_of_subset_of_card_le hsub hcards
    rw [heq]
    exact hw

/-- Witness for `c3_tree_builder` on two distinct chunks. -/
theorem c3_tree_builder_witness : TreeBuilderOK twoChunks :=
  c3_tree_builder twoChunks (by decide) (by decide)
